import Mathlib

/-!
Verification development for the mcp-research-friend repository.

The definitions below are shallow embeddings of the JavaScript sources:

* the ask/chunk/synthesize pipeline (`processAsk`, `processChunked`,
  `processSingleChunk`, `synthesizeResults` from `ask-processor.js`);
* the bounded content cache (`addToCache`, `getFromCache`, `evictOldest`,
  `clearCache` from `pdf-fetch.js` and its stash counterpart);
* the classification sampler (`sampleTextForClassification` from
  `stash/classify.js`).

Document text is modelled as `List Char`; JavaScript numbers that are used
as integers are modelled as `Nat` or `Int` (with `Int` wherever the source
expression can go negative).  Model calls are modelled by threading an
explicit call log, and the model endpoint is an injected pure function.
-/

namespace ResearchFriend

/-! ### Substring containment infrastructure -/

/-- Boolean test that `m` is a prefix of `l` (character lists). -/
def prefixAt : List Char → List Char → Bool
  | _, [] => true
  | [], _ :: _ => false
  | c :: l, d :: m => c == d && prefixAt l m

/-- Boolean substring test: `m` occurs contiguously inside `l`. -/
def containsSub : List Char → List Char → Bool
  | l, m =>
    prefixAt l m ||
      (match l with
       | [] => false
       | _ :: rest => containsSub rest m)

/-- `m` occurs as a contiguous substring of `s` (both as JS strings). -/
def ContainsStr (s m : String) : Prop := containsSub s.data m.data = true

/-- `m` occurs as a contiguous substring of the character list `l`. -/
def ContainsL (l m : List Char) : Prop := containsSub l m = true

theorem prefixAt_iff (m : List Char) :
    ∀ l : List Char, prefixAt l m = true ↔ ∃ b, l = m ++ b := by
  induction m with
  | nil =>
    intro l
    simp [prefixAt]
  | cons d m ih =>
    intro l
    cases l with
    | nil => simp [prefixAt]
    | cons c l =>
      simp only [prefixAt, Bool.and_eq_true, beq_iff_eq, ih l]
      constructor
      · rintro ⟨rfl, b, rfl⟩
        exact ⟨b, rfl⟩
      · rintro ⟨b, hb⟩
        cases hb
        exact ⟨rfl, b, rfl⟩

theorem containsSub_iff (m : List Char) :
    ∀ l : List Char, containsSub l m = true ↔ ∃ a b, l = a ++ m ++ b := by
  intro l
  induction l with
  | nil =>
    simp only [containsSub, prefixAt_iff, Bool.or_eq_true]
    constructor
    · rintro (⟨b, hb⟩ | h)
      · exact ⟨[], b, by simpa using hb⟩
      · simp at h
    · rintro ⟨a, b, hab⟩
      left
      have : a = [] ∧ m ++ b = [] := by
        constructor
        · cases a <;> simp_all
        · cases a <;> simp_all
      exact ⟨b, by simp [this.1] at hab; simpa using hab⟩
  | cons c l ih =>
    simp only [containsSub, Bool.or_eq_true, prefixAt_iff]
    constructor
    · rintro (⟨b, hb⟩ | h)
      · exact ⟨[], b, by simpa using hb⟩
      · obtain ⟨a, b, hab⟩ := ih.mp h
        exact ⟨c :: a, b, by simp [hab]⟩
    · rintro ⟨a, b, hab⟩
      cases a with
      | nil => exact Or.inl ⟨b, by simpa using hab⟩
      | cons x a =>
        right
        refine ih.mpr ⟨a, b, ?_⟩
        simpa using congrArg List.tail hab

theorem containsL_of_decomp {l m a b : List Char} (h : l = a ++ m ++ b) :
    ContainsL l m :=
  (containsSub_iff m l).mpr ⟨a, b, h⟩

theorem containsStr_of_decomp {s m : String} {a b : List Char}
    (h : s.data = a ++ m.data ++ b) : ContainsStr s m :=
  (containsSub_iff m.data s.data).mpr ⟨a, b, h⟩

/-! ### Bounded content cache

Embedding of the module-level cache in `pdf-fetch.js` / the stash fetch
module: a JS `Map` is modelled as an insertion-ordered association list
(first entry = oldest).  The `fetchedAt` timestamp is an injected string
(the source uses `new Date().toISOString()`). -/

def MAX_CACHE_BYTES : Nat := 25 * 1024 * 1024

structure CacheEntry where
  text : List Char
  metadata : String
  contentType : String
  size : Nat
  fetchedAt : String
deriving DecidableEq

abbrev Cache := List (String × CacheEntry)

/-- Total of the `size` fields, as computed by iterating over all entries. -/
def getCacheSize (c : Cache) : Nat := (c.map (fun p => p.2.size)).sum

/-- JS `Map.set`: update in place when the key exists, append otherwise. -/
def mapSet (c : Cache) (k : String) (v : CacheEntry) : Cache :=
  if c.any (fun p => p.1 == k) then
    c.map (fun p => if p.1 == k then (k, v) else p)
  else c ++ [(k, v)]

theorem mapSet_nil (k : String) (v : CacheEntry) : mapSet [] k v = [(k, v)] :=
  rfl

/-- JS `Map.delete`. -/
def mapDelete (c : Cache) (k : String) : Cache :=
  c.filter (fun p => p.1 != k)

/-- The eviction loop of `addToCache`:
`while (cache.size > 0 && getCacheSize() + size > MAX_CACHE_BYTES) evictOldest()`.
`evictOldest` deletes the first key only when that key is truthy, so a cache
whose oldest key is the empty string makes no progress and the JS loop spins
forever; that divergence is modelled by `none`. -/
def evictWhile (size : Nat) : Cache → Option Cache
  | [] => some []
  | (k, e) :: rest =>
    if getCacheSize ((k, e) :: rest) + size > MAX_CACHE_BYTES then
      if k == "" then none
      else evictWhile size rest
    else some ((k, e) :: rest)

/-- `addToCache(url, text, metadata, contentType)`; `none` models the
divergence of the eviction loop. -/
def addToCache (url : String) (text : List Char)
    (metadata contentType fetchedAt : String) (c : Cache) : Option Cache :=
  match evictWhile (text.length * 2) c with
  | none => none
  | some c1 =>
    if text.length * 2 > MAX_CACHE_BYTES then some c1
    else some (mapSet c1 url
      { text := text, metadata := metadata, contentType := contentType,
        size := text.length * 2, fetchedAt := fetchedAt })

/-- `getFromCache(url)`: on a hit the entry is deleted and re-inserted, which
moves it to the most-recently-used end. -/
def getFromCache (url : String) (c : Cache) : Option CacheEntry × Cache :=
  match c.lookup url with
  | some e => (some e, mapSet (mapDelete c url) url e)
  | none => (none, c)

/-- `clearCache()`. -/
def clearCache : Cache := []

/-- `getCacheStats()`. -/
def getCacheStats (c : Cache) : Nat × Nat := (c.length, getCacheSize c)

/-- One external operation against the cache module. -/
inductive CacheOp where
  | put (url : String) (text : List Char) (metadata contentType fetchedAt : String)
  | get (url : String)
  | clear
deriving DecidableEq

def applyOp (c : Cache) : CacheOp → Option Cache
  | .put u t m ct fa => addToCache u t m ct fa c
  | .get u => some (getFromCache u c).2
  | .clear => some clearCache

/-- Run a sequence of operations against the initially empty cache; `none`
when some `put` hits the diverging eviction loop. -/
def runOps (ops : List CacheOp) : Option Cache :=
  ops.foldl (fun acc op => acc.bind (fun c => applyOp c op)) (some [])

theorem getCacheSize_cons (p : String × CacheEntry) (c : Cache) :
    getCacheSize (p :: c) = p.2.size + getCacheSize c := by
  simp [getCacheSize]

theorem getCacheSize_append (c1 c2 : Cache) :
    getCacheSize (c1 ++ c2) = getCacheSize c1 + getCacheSize c2 := by
  simp [getCacheSize]

theorem getCacheSize_sublist {c1 c2 : Cache} (h : List.Sublist c1 c2) :
    getCacheSize c1 ≤ getCacheSize c2 :=
  List.Sublist.sum_le_sum (h.map fun p => p.2.size) (fun x _ => Nat.zero_le x)

theorem evictWhile_suffix (s : Nat) :
    ∀ c c' : Cache, evictWhile s c = some c' → c' <:+ c := by
  intro c
  induction c with
  | nil =>
    intro c' h
    simp only [evictWhile, Option.some.injEq] at h
    simp [← h]
  | cons p rest ih =>
    intro c' h
    obtain ⟨k, e⟩ := p
    simp only [evictWhile] at h
    by_cases h1 : getCacheSize ((k, e) :: rest) + s > MAX_CACHE_BYTES
    · rw [if_pos h1] at h
      by_cases h2 : k == ""
      · rw [if_pos h2] at h
        exact absurd h (by simp)
      · rw [if_neg h2] at h
        exact (ih c' h).trans (List.suffix_cons (k, e) rest)
    · rw [if_neg h1] at h
      cases h
      exact List.suffix_rfl

theorem evictWhile_post (s : Nat) :
    ∀ c c' : Cache, evictWhile s c = some c' →
      c' = [] ∨ getCacheSize c' + s ≤ MAX_CACHE_BYTES := by
  intro c
  induction c with
  | nil =>
    intro c' h
    simp only [evictWhile, Option.some.injEq] at h
    exact Or.inl h.symm
  | cons p rest ih =>
    intro c' h
    obtain ⟨k, e⟩ := p
    simp only [evictWhile] at h
    by_cases h1 : getCacheSize ((k, e) :: rest) + s > MAX_CACHE_BYTES
    · rw [if_pos h1] at h
      by_cases h2 : k == ""
      · rw [if_pos h2] at h
        exact absurd h (by simp)
      · rw [if_neg h2] at h
        exact ih c' h
    · rw [if_neg h1] at h
      cases h
      exact Or.inr (Nat.le_of_not_lt h1)

theorem size_replace_le (k : String) (v : CacheEntry) :
    ∀ c : Cache, (c.map Prod.fst).Nodup →
      getCacheSize (c.map (fun p => if p.1 == k then (k, v) else p)) ≤
        getCacheSize c + v.size := by
  intro c
  induction c with
  | nil =>
    intro _
    simp [getCacheSize]
  | cons p rest ih =>
    intro hnd
    rw [List.map_cons] at hnd
    have hnd' := List.Nodup.of_cons hnd
    by_cases hk : p.1 == k
    · have hkeq : p.1 = k := by simpa using hk
      have hnotmem : k ∉ rest.map Prod.fst := by
        have := (List.nodup_cons.mp hnd).1
        rwa [hkeq] at this
      have hrest : rest.map (fun q => if q.1 == k then (k, v) else q) = rest := by
        have hq : rest.map (fun q => if q.1 == k then (k, v) else q) =
            rest.map id := by
          apply List.map_congr_left
          intro q hq
          rw [if_neg]
          · rfl
          · intro hqk
            exact hnotmem ((by simpa using hqk : q.1 = k) ▸
              List.mem_map_of_mem Prod.fst hq)
        rw [hq, List.map_id]
      rw [List.map_cons, if_pos hk, hrest]
      simp only [getCacheSize, List.map_cons, List.sum_cons]
      omega
    · rw [List.map_cons, if_neg hk]
      simp only [getCacheSize, List.map_cons, List.sum_cons]
      have := ih hnd'
      simp only [getCacheSize] at this
      omega

theorem mapSet_size_le (k : String) (v : CacheEntry) (c : Cache)
    (hnd : (c.map Prod.fst).Nodup) :
    getCacheSize (mapSet c k v) ≤ getCacheSize c + v.size := by
  unfold mapSet
  by_cases hany : c.any (fun p => p.1 == k)
  · rw [if_pos hany]
    exact size_replace_le k v c hnd
  · rw [if_neg hany]
    rw [getCacheSize_append]
    simp [getCacheSize]

theorem mapSet_keys_of_any (k : String) (v : CacheEntry) (c : Cache)
    (hany : c.any (fun p => p.1 == k) = true) :
    (mapSet c k v).map Prod.fst = c.map Prod.fst := by
  unfold mapSet
  rw [if_pos hany, List.map_map]
  apply List.map_congr_left
  intro p _
  simp only [Function.comp_apply]
  by_cases hk : p.1 == k
  · rw [if_pos hk]
    exact (show p.1 = k by simpa using hk).symm
  · rw [if_neg hk]

theorem mapSet_keys_of_not_any (k : String) (v : CacheEntry) (c : Cache)
    (hany : c.any (fun p => p.1 == k) = false) :
    (mapSet c k v).map Prod.fst = c.map Prod.fst ++ [k] := by
  unfold mapSet
  rw [hany]
  simp

theorem mapSet_nodup (k : String) (v : CacheEntry) (c : Cache)
    (hnd : (c.map Prod.fst).Nodup) : ((mapSet c k v).map Prod.fst).Nodup := by
  by_cases hany : c.any (fun p => p.1 == k)
  · rwa [mapSet_keys_of_any k v c hany]
  · have hany' : c.any (fun p => p.1 == k) = false := Bool.eq_false_iff.mpr hany
    rw [mapSet_keys_of_not_any k v c hany']
    rw [List.nodup_append]
    refine ⟨hnd, List.nodup_singleton k, ?_⟩
    intro a ha hb
    rw [List.mem_singleton] at hb
    subst hb
    obtain ⟨p, hp, hpk⟩ := List.mem_map.mp ha
    have hfalse := List.any_eq_false.mp hany' p hp
    exact hfalse (by simp [hpk])

theorem mapDelete_any_eq_false (c : Cache) (u : String) :
    ((mapDelete c u).any (fun p => p.1 == u)) = false := by
  rw [List.any_eq_false]
  intro p hp
  have := List.of_mem_filter hp
  simpa using this

theorem mapDelete_keys_not_mem (c : Cache) (u : String) :
    u ∉ (mapDelete c u).map Prod.fst := by
  intro h
  obtain ⟨p, hp, hpu⟩ := List.mem_map.mp h
  have := List.of_mem_filter hp
  rw [hpu] at this
  simp at this

theorem mapDelete_sublist (c : Cache) (u : String) :
    List.Sublist (mapDelete c u) c :=
  List.filter_sublist c

theorem addToCache_of_evict (url : String) (text : List Char) (m ct fa : String)
    (c c1 : Cache) (hev : evictWhile (text.length * 2) c = some c1) :
    addToCache url text m ct fa c =
      if text.length * 2 > MAX_CACHE_BYTES then some c1
      else some (mapSet c1 url
        { text := text, metadata := m, contentType := ct,
          size := text.length * 2, fetchedAt := fa }) := by
  unfold addToCache
  rw [hev]

theorem addToCache_of_evict_none (url : String) (text : List Char)
    (m ct fa : String) (c : Cache)
    (hev : evictWhile (text.length * 2) c = none) :
    addToCache url text m ct fa c = none := by
  unfold addToCache
  rw [hev]

theorem getFromCache_hit (c : Cache) (u : String) (e : CacheEntry)
    (h : c.lookup u = some e) :
    (getFromCache u c).2 = mapDelete c u ++ [(u, e)] := by
  simp only [getFromCache, h]
  unfold mapSet
  rw [mapDelete_any_eq_false c u]
  simp

theorem mapDelete_size_add_le (u : String) (e : CacheEntry) :
    ∀ c : Cache, c.lookup u = some e →
      getCacheSize (mapDelete c u) + e.size ≤ getCacheSize c := by
  intro c
  induction c with
  | nil =>
    intro h
    simp [List.lookup] at h
  | cons p rest ih =>
    intro h
    obtain ⟨k0, e0⟩ := p
    rw [List.lookup_cons] at h
    by_cases hk : u == k0
    · simp only [hk] at h
      have he : e0 = e := by injection h
      subst he
      have hfil : getCacheSize (mapDelete rest u) ≤ getCacheSize rest :=
        getCacheSize_sublist (mapDelete_sublist rest u)
      have hdel : mapDelete ((k0, e0) :: rest) u = mapDelete rest u := by
        unfold mapDelete
        rw [List.filter_cons]
        have hbne : ((k0, e0).1 != u) = false := by
          have : u = k0 := by simpa using hk
          simp [this]
        rw [hbne]
        simp
      rw [hdel, getCacheSize_cons]
      have hsnd : ((k0, e0) : String × CacheEntry).2.size = e0.size := rfl
      omega
    · have hkf : (u == k0) = false := Bool.eq_false_iff.mpr hk
      simp only [hkf] at h
      have hdel : mapDelete ((k0, e0) :: rest) u = (k0, e0) :: mapDelete rest u := by
        unfold mapDelete
        rw [List.filter_cons]
        have hbne : ((k0, e0).1 != u) = true := by
          have : ¬ k0 = u := fun hh => hk (by simp [hh])
          simpa using this
        rw [hbne]
        simp
      rw [hdel, getCacheSize_cons, getCacheSize_cons]
      have := ih h
      have hsnd : ((k0, e0) : String × CacheEntry).2.size = e0.size := rfl
      omega

/-- Preservation of the size bound and key uniqueness by every operation. -/
theorem applyOp_inv {c c' : Cache} {op : CacheOp}
    (hs : getCacheSize c ≤ MAX_CACHE_BYTES) (hn : (c.map Prod.fst).Nodup)
    (h : applyOp c op = some c') :
    getCacheSize c' ≤ MAX_CACHE_BYTES ∧ (c'.map Prod.fst).Nodup := by
  cases op with
  | clear =>
    simp only [applyOp, Option.some.injEq] at h
    subst h
    simp [clearCache, getCacheSize]
  | get u =>
    simp only [applyOp, Option.some.injEq] at h
    subst h
    rcases hlook : c.lookup u with _ | e
    · simp only [getFromCache, hlook]
      exact ⟨hs, hn⟩
    · rw [getFromCache_hit c u e hlook]
      constructor
      · rw [getCacheSize_append]
        have := mapDelete_size_add_le u e c hlook
        simp only [getCacheSize, List.map_cons, List.map_nil, List.sum_cons,
          List.sum_nil] at *
        omega
      · rw [List.map_append]
        rw [List.nodup_append]
        refine ⟨((mapDelete_sublist c u).map Prod.fst).nodup hn, by simp, ?_⟩
        intro a ha hb
        simp only [List.map_cons, List.map_nil, List.mem_singleton] at hb
        subst hb
        exact mapDelete_keys_not_mem c a ha
  | put u t m ct fa =>
    simp only [applyOp] at h
    rcases hev : evictWhile (t.length * 2) c with _ | c1
    · rw [addToCache_of_evict_none u t m ct fa c hev] at h
      exact absurd h (by simp)
    · rw [addToCache_of_evict u t m ct fa c c1 hev] at h
      have hsub := (evictWhile_suffix _ c c1 hev).sublist
      have hs1 : getCacheSize c1 ≤ getCacheSize c := getCacheSize_sublist hsub
      have hn1 : (c1.map Prod.fst).Nodup := (hsub.map Prod.fst).nodup hn
      by_cases hbig : t.length * 2 > MAX_CACHE_BYTES
      · rw [if_pos hbig] at h
        have hc : c1 = c' := by injection h
        subst hc
        exact ⟨le_trans hs1 hs, hn1⟩
      · rw [if_neg hbig] at h
        have hc : mapSet c1 u
            { text := t, metadata := m, contentType := ct,
              size := t.length * 2, fetchedAt := fa } = c' := by injection h
        subst hc
        refine ⟨?_, mapSet_nodup _ _ _ hn1⟩
        rcases evictWhile_post _ c c1 hev with hnil | hroom
        · subst hnil
          rw [mapSet_nil]
          simp only [getCacheSize, List.map_cons, List.map_nil, List.sum_cons,
            List.sum_nil]
          omega
        · have hle := mapSet_size_le u
            { text := t, metadata := m, contentType := ct,
              size := t.length * 2, fetchedAt := fa } c1 hn1
          exact le_trans hle hroom

theorem runOps_inv (ops : List CacheOp) :
    ∀ c0 c : Cache, getCacheSize c0 ≤ MAX_CACHE_BYTES →
      (c0.map Prod.fst).Nodup →
      ops.foldl (fun acc op => acc.bind (fun x => applyOp x op)) (some c0) = some c →
      getCacheSize c ≤ MAX_CACHE_BYTES ∧ (c.map Prod.fst).Nodup := by
  induction ops with
  | nil =>
    intro c0 c hs hn h
    simp only [List.foldl_nil, Option.some.injEq] at h
    subst h
    exact ⟨hs, hn⟩
  | cons op ops ih =>
    intro c0 c hs hn h
    rw [List.foldl_cons] at h
    have h' : List.foldl (fun acc op => acc.bind fun x => applyOp x op)
        (applyOp c0 op) ops = some c := h
    rcases hap : applyOp c0 op with _ | c1
    · rw [hap] at h'
      exfalso
      have hnone : ∀ (l : List CacheOp),
          l.foldl (fun acc op => acc.bind (fun x => applyOp x op)) none = none := by
        intro l
        induction l with
        | nil => rfl
        | cons x xs ihx => simpa using ihx
      rw [hnone ops] at h'
      exact Option.noConfusion h'
    · rw [hap] at h'
      obtain ⟨hs1, hn1⟩ := applyOp_inv hs hn hap
      exact ih c1 c hs1 hn1 h' 

/-- Claim C7: over every completed sequence of put/get/clear operations, the
total of the entries` approximate sizes never exceeds the 25 MiB ceiling, and
no single entry whose approximate size exceeds the ceiling is ever present in
the cache. -/
theorem cache_size_invariant (ops : List CacheOp) (c : Cache)
    (h : runOps ops = some c) :
    getCacheSize c ≤ MAX_CACHE_BYTES ∧
      ∀ p ∈ c, p.2.size ≤ MAX_CACHE_BYTES := by
  obtain ⟨hs, _⟩ := runOps_inv ops [] c (by simp [getCacheSize]) (by simp) h
  refine ⟨hs, ?_⟩
  intro p hp
  refine le_trans ?_ hs
  have : p.2.size ∈ c.map (fun q => q.2.size) := List.mem_map_of_mem _ hp
  exact List.single_le_sum (fun x _ => Nat.zero_le x) _ this

def entryXY : CacheEntry :=
  { text := ['x', 'y'], metadata := "m", contentType := "ct", size := 4,
    fetchedAt := "t0" }

theorem cache_size_invariant_witness :
    getCacheSize [("a", entryXY)] ≤ MAX_CACHE_BYTES ∧
      ∀ p ∈ [("a", entryXY)], p.2.size ≤ MAX_CACHE_BYTES :=
  cache_size_invariant [.put "a" ['x', 'y'] "m" "ct" "t0"] [("a", entryXY)]
    (by rfl)

/-- Claim C8: a get moves the touched entry to the most-recently-used end;
eviction always removes oldest entries first (the surviving cache is a suffix
of the pre-eviction order); and a get immediately followed by a put of a
different key never evicts the just-touched entry when that entry plus the
new one fit under the ceiling. -/
theorem cache_recency_order :
    (∀ (c : Cache) (u : String) (e : CacheEntry), c.lookup u = some e →
        (getFromCache u c).2 = mapDelete c u ++ [(u, e)]) ∧
    (∀ (s : Nat) (c c' : Cache), evictWhile s c = some c' → c' <:+ c) ∧
    (∀ (c : Cache) (k k' : String) (e : CacheEntry) (t' : List Char)
        (m ct fa : String) (c2 : Cache),
        c.lookup k = some e → k' ≠ k →
        e.size + t'.length * 2 ≤ MAX_CACHE_BYTES →
        addToCache k' t' m ct fa ((getFromCache k c).2) = some c2 →
        (k, e) ∈ c2) := by
  refine ⟨getFromCache_hit, evictWhile_suffix, ?_⟩
  intro c k k' e t' m ct fa c2 hlook hne hroom h
  rw [getFromCache_hit c k e hlook] at h
  have hkeep : ∀ l : Cache, ∀ c'' : Cache,
      evictWhile (t'.length * 2) (l ++ [(k, e)]) = some c'' → (k, e) ∈ c'' := by
    intro l
    induction l with
    | nil =>
      intro c'' h''
      simp only [List.nil_append, evictWhile] at h''
      rw [if_neg (by
        simp only [getCacheSize, List.map_cons, List.map_nil, List.sum_cons,
          List.sum_nil]
        omega)] at h''
      cases h''
      simp
    | cons p rest ihl =>
      intro c'' h''
      obtain ⟨k0, e0⟩ := p
      rw [List.cons_append] at h''
      simp only [evictWhile] at h''
      by_cases h1 : getCacheSize ((k0, e0) :: (rest ++ [(k, e)])) + t'.length * 2 >
          MAX_CACHE_BYTES
      · rw [if_pos h1] at h''
        by_cases h2 : k0 == ""
        · rw [if_pos h2] at h''
          exact absurd h'' (by simp)
        · rw [if_neg h2] at h''
          exact ihl c'' h''
      · rw [if_neg h1] at h''
        cases h''
        simp
  rcases hev : evictWhile (t'.length * 2) (mapDelete c k ++ [(k, e)]) with _ | c''
  · rw [addToCache_of_evict_none k' t' m ct fa _ hev] at h
    exact absurd h (by simp)
  · rw [addToCache_of_evict k' t' m ct fa _ c'' hev] at h
    have hmem := hkeep (mapDelete c k) c'' hev
    rw [if_neg (show ¬ t'.length * 2 > MAX_CACHE_BYTES by omega)] at h
    have hc : mapSet c'' k'
        { text := t', metadata := m, contentType := ct,
          size := t'.length * 2, fetchedAt := fa } = c2 := by injection h
    subst hc
    unfold mapSet
    by_cases hany : c''.any (fun p => p.1 == k')
    · rw [if_pos hany]
      refine List.mem_map.mpr ⟨(k, e), hmem, ?_⟩
      exact if_neg (fun hkk => hne (show k = k' by simpa using hkk).symm)
    · rw [if_neg hany]
      exact List.mem_append_left _ hmem

theorem cache_recency_order_witness :
    ("k", entryXY) ∈
      ([("k", entryXY), ("j",
        { text := ['z'], metadata := "m", contentType := "ct", size := 2,
          fetchedAt := "t1" })] : Cache) :=
  cache_recency_order.2.2 [("k", entryXY)] "k" "j" entryXY ['z'] "m" "ct" "t1"
    [("k", entryXY), ("j",
      { text := ['z'], metadata := "m", contentType := "ct", size := 2,
        fetchedAt := "t1" })] (by rfl) (by decide) (by decide) (by rfl)

theorem evictWhile_drain (s : Nat) (hbig : MAX_CACHE_BYTES < s) :
    ∀ c : Cache, (∀ p ∈ c, p.1 ≠ "") → evictWhile s c = some [] := by
  intro c
  induction c with
  | nil => intro _; rfl
  | cons p rest ih =>
    intro hkeys
    obtain ⟨k, e⟩ := p
    simp only [evictWhile]
    rw [if_pos (by
      have : getCacheSize ((k, e) :: rest) + s ≥ s := Nat.le_add_left s _
      omega)]
    rw [if_neg (by
      have := hkeys (k, e) (List.mem_cons_self _ _)
      simpa using this)]
    exact ih (fun q hq => hkeys q (List.mem_cons_of_mem _ hq))

/-- Claim C10: a put whose approximate size alone exceeds the 25 MiB ceiling
first evicts every existing entry and then refuses to admit the new one, so
the cache ends up empty (not unchanged). -/
theorem oversized_put_empties_cache (url : String) (text : List Char)
    (m ct fa : String) (c : Cache)
    (hbig : MAX_CACHE_BYTES < text.length * 2)
    (hkeys : ∀ p ∈ c, p.1 ≠ "") :
    addToCache url text m ct fa c = some [] := by
  rw [addToCache_of_evict url text m ct fa c []
    (evictWhile_drain (text.length * 2) hbig c hkeys)]
  rw [if_pos hbig]

theorem oversized_put_empties_cache_witness :
    addToCache "u" (List.replicate 13107201 'a') "m" "ct" "t2"
      [("k", entryXY)] = some [] := by
  refine oversized_put_empties_cache "u" (List.replicate 13107201 'a') "m" "ct"
    "t2" [("k", entryXY)] ?_ ?_
  · rw [List.length_replicate]
    norm_num [MAX_CACHE_BYTES]
  · intro p hp
    rw [List.mem_singleton] at hp
    subst hp
    decide

/-! ### Ask pipeline

Embedding of `ask-processor.js`: `extractResponseText`, `processSingleChunk`,
`synthesizeResults`, `processChunked` and `processAsk`.  The model endpoint
(`_server.server.createMessage`) is an injected pure function from the call
descriptor to a result; each processing function additionally returns the
ordered list of model calls it issued. -/

def CHARS_PER_TOKEN : Nat := 4

def HARD_LIMIT_CHARS : Nat := 20 * 1024 * 1024

structure TextBlock where
  type : String
  text : String
deriving DecidableEq

/-- The duck-typed shapes of `result.content`: a plain string, an array of
blocks, or a single block object. -/
inductive MsgContent where
  | str : String → MsgContent
  | blocks : List TextBlock → MsgContent
  | single : TextBlock → MsgContent
deriving DecidableEq

structure ModelResult where
  content : MsgContent
  model : String
deriving DecidableEq

/-- One outbound `createMessage` call: the user message text, the system
prompt, the `maxTokens` budget and the timeout. -/
structure ModelCall where
  userPrompt : String
  systemPrompt : String
  maxTokens : Nat
  timeoutMs : Nat
deriving DecidableEq

/-- The injected model endpoint. -/
def Server := ModelCall → ModelResult

/-- `JSON.stringify` on a single block object (modelled without string
escaping; only reached for a non-text single block). -/
def jsonStringifyBlock (b : TextBlock) : String :=
  "\x7b\"type\":\"" ++ b.type ++ "\",\"text\":\"" ++ b.text ++ "\"\x7d"

/-- `extractResponseText(result)`. -/
def extractResponseText (r : ModelResult) : String :=
  match r.content with
  | .str s => s
  | .blocks bs =>
    String.intercalate "\n" ((bs.filter (fun b => b.type == "text")).map
      (fun b => b.text))
  | .single b => if b.type == "text" then b.text else jsonStringifyBlock b

/-- `Number.prototype.toLocaleString()` under the default en-US locale:
decimal digits grouped in threes by commas.  Helper: inserts a comma after
every three characters of the reversed digit list. -/
def groupRevDigits : List Char → List Char
  | a :: b :: c :: d :: rest => a :: b :: c :: ',' :: groupRevDigits (d :: rest)
  | l => l

def toLocaleString (n : Nat) : String :=
  String.mk (groupRevDigits (Nat.toDigits 10 n).reverse).reverse

structure SingleResult where
  text : String
  model : String
deriving DecidableEq

/-- System prompt of `processSingleChunk` when given chunk context. -/
def chunkSystemPrompt (documentType : String) (current total : Nat) : String :=
  "You are processing part of a larger " ++ documentType ++
    " that has been split due to size. " ++
    "You are viewing part " ++ toString current ++ " of " ++ toString total ++
    ". " ++
    "The user\x27s request below applies to the entire document, but you can only see this portion. " ++
    "Respond based on what is visible in this part. If this part doesn\x27t contain relevant information " ++
    "for the request, say so briefly. Your response will be combined with responses from other parts."

/-- User prompt of `processSingleChunk` when given chunk context. -/
def chunkUserPrompt (documentType : String) (current total : Nat)
    (text ask : String) : String :=
  "Here is part " ++ toString current ++ " of " ++ toString total ++
    " of the " ++ documentType ++ ":\n\n" ++
    "---\n\n" ++ text ++ "\n\n---\n\n" ++
    "User\x27s request (for the full document): " ++ ask

/-- System prompt of `processSingleChunk` for a complete document. -/
def wholeSystemPrompt (documentType : String) : String :=
  "You are a helpful assistant processing a " ++ documentType ++ ". " ++
    "Follow the user\x27s request precisely. Be concise and accurate. " ++
    "Base your response only on the document content."

/-- User prompt of `processSingleChunk` for a complete document. -/
def wholeUserPrompt (documentType : String) (text ask : String) : String :=
  "Here is the " ++ documentType ++ ":\n\n" ++
    "---\n\n" ++ text ++ "\n\n---\n\n" ++
    "Request: " ++ ask

/-- `processSingleChunk`: builds the prompts, issues exactly one model call,
and extracts the plain-text answer.  Also returns the call it issued. -/
def processSingleChunk (server : Server) (text ask : String)
    (askMaxOutputTokens askTimeout : Nat) (documentType : String)
    (chunkInfo : Option (Nat × Nat)) : SingleResult × ModelCall :=
  let call : ModelCall :=
    match chunkInfo with
    | some (current, total) =>
      { userPrompt := chunkUserPrompt documentType current total text ask,
        systemPrompt := chunkSystemPrompt documentType current total,
        maxTokens := askMaxOutputTokens, timeoutMs := askTimeout }
    | none =>
      { userPrompt := wholeUserPrompt documentType text ask,
        systemPrompt := wholeSystemPrompt documentType,
        maxTokens := askMaxOutputTokens, timeoutMs := askTimeout }
  let result := server call
  ({ text := extractResponseText result, model := result.model }, call)

/-- The synthesis user prompt of `synthesizeResults`, listing every chunk
result under a Response from Part N heading. -/
def synthesisUserPrompt (chunkResults : List String) (ask documentType : String) :
    String :=
  "A " ++ documentType ++
    " was too large to process at once, so it was split into " ++
    toString chunkResults.length ++ " parts. " ++
    "Each part was processed separately with the same user request. Here are the responses from each part:\n\n" ++
    String.intercalate "\n\n" (chunkResults.enum.map
      (fun p => "## Response from Part " ++ toString (p.1 + 1) ++ "\n" ++ p.2)) ++
    "\n\n---\n\n" ++
    "The user\x27s original request was: \"" ++ ask ++ "\"\n\n" ++
    "Please synthesize the above partial responses into a single, coherent answer to the user\x27s request. " ++
    "Combine relevant information, eliminate redundancy, and resolve any apparent contradictions. " ++
    "If some parts indicated they lacked relevant information, focus on the parts that did contain it. " ++
    "Respond in the same language as the user\x27s request, regardless of the document\x27s language, unless otherwise specified."

def synthesisSystemPrompt : String :=
  "You are combining partial responses from a chunked document analysis into one unified answer. " ++
    "The user made a request about a large document that was processed in parts. " ++
    "Your job is to synthesize the partial responses into a complete, coherent answer."

/-- `synthesizeResults`: one synthesis model call over the chunk results. -/
def synthesizeResults (server : Server) (chunkResults : List String)
    (ask : String) (askMaxOutputTokens askTimeout : Nat)
    (documentType : String) : SingleResult × ModelCall :=
  let call : ModelCall :=
    { userPrompt := synthesisUserPrompt chunkResults ask documentType,
      systemPrompt := synthesisSystemPrompt,
      maxTokens := askMaxOutputTokens, timeoutMs := askTimeout }
  let result := server call
  ({ text := extractResponseText result, model := result.model }, call)

/-- JS `String.prototype.slice` index normalisation. -/
def jsSliceIndex (len : Nat) (i : Int) : Nat :=
  if i < 0 then ((len : Int) + i).toNat else min i.toNat len

/-- JS `text.slice(start, stop)` on a character list. -/
def jsSlice (t : List Char) (start stop : Int) : List Char :=
  (t.take (jsSliceIndex t.length stop)).drop (jsSliceIndex t.length start)

/-- The chunk-splitting loop of `processChunked`:
`for (let i = 0; i < fullText.length; i += chunkChars - overlap)
   chunks.push(fullText.slice(i, Math.min(i + chunkChars, fullText.length)))`.
The loop has no guard against a non-positive step, so it is modelled with
explicit fuel; `none` means the fuel ran out (for a non-positive step the
JS loop never terminates, see `chunkLoop_none_of_nonpos`). -/
def chunkLoop : Nat → List Char → Int → Int → Int → Option (List (List Char))
  | 0, _, _, _, _ => none
  | fuel + 1, fullText, chunkChars, overlap, i =>
    if i < (fullText.length : Int) then
      match chunkLoop fuel fullText chunkChars overlap
          (i + (chunkChars - overlap)) with
      | none => none
      | some rest =>
        some (jsSlice fullText i (min (i + chunkChars)
          (fullText.length : Int)) :: rest)
    else some []

/-- Fuel that suffices whenever the loop step is positive. -/
def chunkFuel (fullText : List Char) : Nat := fullText.length + 1

/-- The chunk-size computation and splitting step of `processChunked`:
`promptOverhead = 2000`, `usableInputTokens = askMaxInputTokens - 2000`,
`chunkChars = usableInputTokens * CHARS_PER_TOKEN`, `overlap = 500`. -/
def splitChunks (fullText : List Char) (askMaxInputTokens : Nat) :
    Option (List (List Char)) :=
  chunkLoop (chunkFuel fullText) fullText
    (((askMaxInputTokens : Int) - 2000) * (CHARS_PER_TOKEN : Int)) 500 0

structure AskResult where
  answer : String
  model : String
  chunksProcessed : Nat
deriving DecidableEq

/-- `processChunked`: split, process each chunk in order, then synthesize.
Returns the result together with the ordered list of model calls
(chunk calls followed by the synthesis call); `none` models the diverging
split loop. -/
def processChunked (server : Server) (fullText : List Char) (ask : String)
    (askMaxInputTokens askMaxOutputTokens askTimeout : Nat)
    (documentType : String) : Option (AskResult × List ModelCall) :=
  match splitChunks fullText askMaxInputTokens with
  | none => none
  | some chunks =>
    let processed := chunks.enum.map (fun p =>
      processSingleChunk server (String.mk p.2) ask askMaxOutputTokens
        askTimeout documentType (some (p.1 + 1, chunks.length)))
    let chunkResults := processed.map (fun q => q.1.text)
    let synth := synthesizeResults server chunkResults ask askMaxOutputTokens
      askTimeout documentType
    some ({ answer := synth.1.text, model := synth.1.model,
            chunksProcessed := chunks.length },
          processed.map (fun q => q.2) ++ [synth.2])

/-- Outcome of `processAsk`: a thrown error with the calls made before the
throw, divergence of the chunk loop, or a result with the full call log. -/
inductive AskOutcome where
  | err : String → List ModelCall → AskOutcome
  | fuelOut : AskOutcome
  | ok : AskResult → List ModelCall → AskOutcome
deriving DecidableEq

/-- The hard-limit error message of `processAsk`. -/
def hardLimitMsg : String :=
  "Document exceeds maximum size of 20 MB for ask mode. " ++
    "Use \x27search\x27 to find specific content, or pagination (offset/maxChars) to read in chunks."

/-- The too-large error message of `processAsk` (splitting disabled). -/
def tooLargeMsg (estimatedTokens askMaxInputTokens : Nat) : String :=
  "Document too large for ask mode (~" ++ toLocaleString estimatedTokens ++
    " tokens, " ++
    "limit is " ++ toLocaleString askMaxInputTokens ++ "). " ++
    "Use \x27search\x27 to find specific content, pagination (offset/maxChars) " ++
    "to read in chunks, or set \x27askSplitAndSynthesize: true\x27 for automatic " ++
    "chunked processing (warning: consumes many tokens)."

/-- `Math.ceil(fullText.length / CHARS_PER_TOKEN)`. -/
def estimatedTokensOf (fullText : List Char) : Nat :=
  (fullText.length + (CHARS_PER_TOKEN - 1)) / CHARS_PER_TOKEN

/-- `processAsk`: hard 20 MB ceiling first, then the single-call vs chunked
decision with the 2000-token headroom. -/
def processAsk (server : Server) (fullText : List Char) (ask : String)
    (askMaxInputTokens askMaxOutputTokens askTimeout : Nat)
    (askSplitAndSynthesize : Bool) (documentType : String) : AskOutcome :=
  if fullText.length > HARD_LIMIT_CHARS then .err hardLimitMsg []
  else
    if (estimatedTokensOf fullText : Int) > (askMaxInputTokens : Int) - 2000 then
      if !askSplitAndSynthesize then
        .err (tooLargeMsg (estimatedTokensOf fullText) askMaxInputTokens) []
      else
        match processChunked server fullText ask askMaxInputTokens
            askMaxOutputTokens askTimeout documentType with
        | none => .fuelOut
        | some (r, calls) => .ok r calls
    else
      let p := processSingleChunk server (String.mk fullText) ask
        askMaxOutputTokens askTimeout documentType none
      .ok { answer := p.1.text, model := p.1.model, chunksProcessed := 1 }
        [p.2]

/-- A fixed concrete model endpoint used by witnesses and counterexamples. -/
def constServer : Server :=
  fun _ => { content := .str "stub answer", model := "stub-model" }

/-! ### Chunker lemmas -/

/-- Structurally recursive version of the chunk loop, used for reasoning;
`chunkLoop_eq_chunksPos` connects it to the fuelled loop whenever the step
`cc - ov` is positive. -/
def chunksPos (t : List Char) (cc ov i : Nat) : List (List Char) :=
  if i < t.length ∧ ov < cc then
    (t.take (min (i + cc) t.length)).drop i :: chunksPos t cc ov (i + (cc - ov))
  else []
termination_by t.length - i
decreasing_by omega

theorem chunksPos_eq (t : List Char) (cc ov i : Nat) :
    chunksPos t cc ov i =
      if i < t.length ∧ ov < cc then
        (t.take (min (i + cc) t.length)).drop i ::
          chunksPos t cc ov (i + (cc - ov))
      else [] := by
  rw [chunksPos]

theorem chunkLoop_succ (fuel : Nat) (t : List Char) (cc ov i : Int) :
    chunkLoop (fuel + 1) t cc ov i =
      if i < (t.length : Int) then
        match chunkLoop fuel t cc ov (i + (cc - ov)) with
        | none => none
        | some rest =>
          some (jsSlice t i (min (i + cc) (t.length : Int)) :: rest)
      else some [] := rfl

theorem jsSliceIndex_natCast (len i : Nat) (h : i ≤ len) :
    jsSliceIndex len (i : Int) = i := by
  unfold jsSliceIndex
  rw [if_neg (by omega)]
  omega

theorem jsSliceIndex_min_natCast (len i cc : Nat) :
    jsSliceIndex len (min ((i : Int) + (cc : Int)) (len : Int)) =
      min (i + cc) len := by
  unfold jsSliceIndex
  rw [if_neg (by omega)]
  omega

theorem jsSlice_natCast (t : List Char) (i cc : Nat) (hi : i ≤ t.length) :
    jsSlice t (i : Int) (min ((i : Int) + (cc : Int)) (t.length : Int)) =
      (t.take (min (i + cc) t.length)).drop i := by
  unfold jsSlice
  rw [jsSliceIndex_natCast _ _ hi, jsSliceIndex_min_natCast]

theorem chunkLoop_eq_chunksPos (t : List Char) (cc ov : Nat) (hov : ov < cc) :
    ∀ fuel i : Nat, t.length ≤ i + fuel →
      chunkLoop (fuel + 1) t (cc : Int) (ov : Int) (i : Int) =
        some (chunksPos t cc ov i) := by
  intro fuel
  induction fuel with
  | zero =>
    intro i hle
    rw [chunkLoop_succ]
    rw [if_neg (by exact_mod_cast Nat.not_lt.mpr (by omega))]
    rw [chunksPos_eq, if_neg (by omega)]
  | succ fuel ih =>
    intro i hle
    by_cases hi : i < t.length
    · rw [chunkLoop_succ]
      rw [if_pos (by exact_mod_cast hi)]
      have hcast : (i : Int) + ((cc : Int) - (ov : Int)) =
          ((i + (cc - ov) : Nat) : Int) := by
        omega
      rw [hcast, ih (i + (cc - ov)) (by omega)]
      rw [jsSlice_natCast t i cc (le_of_lt hi)]
      conv_rhs => rw [chunksPos_eq]
      rw [if_pos ⟨hi, hov⟩]
    · rw [chunkLoop_succ]
      rw [if_neg (by exact_mod_cast hi)]
      rw [chunksPos_eq, if_neg (by omega)]

/-- For a non-positive step the chunk loop never terminates: it returns
`none` at every fuel. -/
theorem chunkLoop_none_of_nonpos (t : List Char) (cc ov : Int)
    (hstep : cc - ov ≤ 0) (hlen : 0 < t.length) :
    ∀ (fuel : Nat) (i : Int), i ≤ 0 → chunkLoop fuel t cc ov i = none := by
  intro fuel
  induction fuel with
  | zero =>
    intro i _
    rfl
  | succ fuel ih =>
    intro i hi
    rw [chunkLoop_succ]
    rw [if_pos (show i < (t.length : Int) by
      have h0 : (0 : Int) < (t.length : Int) := by exact_mod_cast hlen
      omega)]
    rw [ih (i + (cc - ov)) (by omega)]

theorem splitChunks_eq_chunksPos (fullText : List Char)
    (askMaxInputTokens : Nat)
    (hcc : 500 < (askMaxInputTokens - 2000) * 4) :
    splitChunks fullText askMaxInputTokens =
      some (chunksPos fullText ((askMaxInputTokens - 2000) * 4) 500 0) := by
  unfold splitChunks chunkFuel
  have hcast : ((askMaxInputTokens : Int) - 2000) * (CHARS_PER_TOKEN : Int) =
      (((askMaxInputTokens - 2000) * 4 : Nat) : Int) := by
    simp only [CHARS_PER_TOKEN]
    omega
  rw [hcast]
  have h := chunkLoop_eq_chunksPos fullText ((askMaxInputTokens - 2000) * 4) 500
    (by omega) fullText.length 0 (by omega)
  simpa using h

/-! ### Ask pipeline claims: hard ceiling, fail-fast, single call -/

def bigDoc : List Char := List.replicate (21 * 1024 * 1024) 'a'

theorem bigDoc_length : bigDoc.length = 21 * 1024 * 1024 :=
  List.length_replicate _ _

theorem estimatedTokensOf_eq (l : List Char) :
    estimatedTokensOf l = (l.length + (CHARS_PER_TOKEN - 1)) / CHARS_PER_TOKEN :=
  rfl

theorem bigDoc_est : estimatedTokensOf bigDoc = 5505024 := by
  rw [estimatedTokensOf_eq, bigDoc_length]
  norm_num [CHARS_PER_TOKEN]

theorem bigDoc_hard : HARD_LIMIT_CHARS < bigDoc.length := by
  rw [bigDoc_length]
  norm_num [HARD_LIMIT_CHARS]

theorem doc100000_est :
    estimatedTokensOf (List.replicate 100000 'a') = 25000 := by
  rw [estimatedTokensOf_eq, List.length_replicate]
  norm_num [CHARS_PER_TOKEN]

theorem doc100000_hard :
    (List.replicate 100000 'a').length ≤ HARD_LIMIT_CHARS := by
  rw [List.length_replicate]
  norm_num [HARD_LIMIT_CHARS]

/-- Claim C2: any document longer than the 20 MiB hard ceiling is rejected
with the hard-limit message, which names the 20 MB ceiling, and zero model
calls are made, for either value of the splitting flag. -/
theorem hard_ceiling_rejects (server : Server) (fullText : List Char)
    (ask : String) (askMaxInputTokens askMaxOutputTokens askTimeout : Nat)
    (split : Bool) (documentType : String)
    (h : HARD_LIMIT_CHARS < fullText.length) :
    processAsk server fullText ask askMaxInputTokens askMaxOutputTokens
        askTimeout split documentType = .err hardLimitMsg [] ∧
      ContainsStr hardLimitMsg "20 MB" := by
  constructor
  · unfold processAsk
    rw [if_pos h]
  · unfold ContainsStr
    decide

theorem hard_ceiling_rejects_witness :
    processAsk constServer bigDoc "q" 150000 4096 300000 true "document" =
        .err hardLimitMsg [] ∧
      ContainsStr hardLimitMsg "20 MB" :=
  hard_ceiling_rejects constServer bigDoc "q" 150000 4096 300000 true
    "document" bigDoc_hard

/-- Claim C3 (code bug): with `askMaxInputTokens = 2000` the computed chunk
size is `(2000 - 2000) * 4 = 0`, which is non-positive, and instead of
failing fast the chunk loop never terminates (it returns `none` at every
fuel), so `processAsk` on a 600-character document with splitting enabled
diverges rather than raising an explicit error. -/
theorem chunked_no_fail_fast (server : Server) (ask : String) (fuel : Nat) :
    chunkLoop fuel (List.replicate 600 'a')
        ((((2000 : Nat) : Int) - 2000) * (CHARS_PER_TOKEN : Int)) 500 0 =
        none ∧
      processAsk server (List.replicate 600 'a') ask 2000 4096 300000 true
        "document" = .fuelOut := by
  have hdiv := chunkLoop_none_of_nonpos (List.replicate 600 'a')
    ((((2000 : Nat) : Int) - 2000) * (CHARS_PER_TOKEN : Int)) 500
    (by norm_num [CHARS_PER_TOKEN]) (by norm_num)
  have hpc : processChunked server (List.replicate 600 'a') ask 2000 4096
      300000 "document" = none := by
    unfold processChunked
    rw [show splitChunks (List.replicate 600 'a') 2000 = none from by
      unfold splitChunks chunkFuel
      exact hdiv _ 0 le_rfl]
  refine ⟨hdiv fuel 0 le_rfl, ?_⟩
  unfold processAsk
  rw [if_neg (by norm_num [HARD_LIMIT_CHARS])]
  rw [if_pos (by norm_num [estimatedTokensOf, CHARS_PER_TOKEN])]
  simp only [Bool.not_true]
  rw [if_neg (by simp)]
  rw [hpc]

/-- Claim C6: a document within the hard ceiling whose estimated token count
is at or below `askMaxInputTokens - 2000` is processed with exactly one model
call carrying the whole-document prompts (no chunk framing), and
`chunksProcessed = 1`, for either value of the splitting flag. -/
theorem single_call_when_fits (server : Server) (fullText : List Char)
    (ask : String) (askMaxInputTokens askMaxOutputTokens askTimeout : Nat)
    (split : Bool) (documentType : String)
    (hhard : fullText.length ≤ HARD_LIMIT_CHARS)
    (hfits : (estimatedTokensOf fullText : Int) ≤
      (askMaxInputTokens : Int) - 2000) :
    ∃ r : AskResult,
      processAsk server fullText ask askMaxInputTokens askMaxOutputTokens
          askTimeout split documentType =
        .ok r [{ userPrompt :=
                   wholeUserPrompt documentType (String.mk fullText) ask,
                 systemPrompt := wholeSystemPrompt documentType,
                 maxTokens := askMaxOutputTokens, timeoutMs := askTimeout }] ∧
      r.chunksProcessed = 1 := by
  unfold processAsk
  rw [if_neg (by omega), if_neg (by omega)]
  exact ⟨_, rfl, rfl⟩

theorem single_call_when_fits_witness :
    ∃ r : AskResult,
      processAsk constServer (List.replicate 4000 'a') "q" 20000 4096 300000
          false "document" =
        .ok r [{ userPrompt := wholeUserPrompt "document"
                   (String.mk (List.replicate 4000 'a')) "q",
                 systemPrompt := wholeSystemPrompt "document",
                 maxTokens := 4096, timeoutMs := 300000 }] ∧
      r.chunksProcessed = 1 :=
  single_call_when_fits constServer (List.replicate 4000 'a') "q" 20000 4096
    300000 false "document" (by norm_num [HARD_LIMIT_CHARS])
    (by norm_num [estimatedTokensOf, CHARS_PER_TOKEN])

/-! ### Containment helpers for the too-large message -/

theorem containsL_left_append (x m : List Char) : ContainsL (x ++ m) m :=
  containsL_of_decomp (show x ++ m = x ++ m ++ [] by simp)

theorem ContainsL.mono_left (x : List Char) {l m : List Char}
    (h : ContainsL l m) : ContainsL (x ++ l) m := by
  obtain ⟨a, b, rfl⟩ := (containsSub_iff m l).mp h
  exact containsL_of_decomp (show x ++ (a ++ m ++ b) = (x ++ a) ++ m ++ b by simp)

theorem ContainsL.mono_right (y : List Char) {l m : List Char}
    (h : ContainsL l m) : ContainsL (l ++ y) m := by
  obtain ⟨a, b, rfl⟩ := (containsSub_iff m l).mp h
  exact containsL_of_decomp (show (a ++ m ++ b) ++ y = a ++ m ++ (b ++ y) by simp)

theorem tooLargeMsg_contains_est (est mt : Nat) :
    ContainsStr (tooLargeMsg est mt) (toLocaleString est) := by
  unfold ContainsStr tooLargeMsg
  simp only [String.data_append]
  exact ContainsL.mono_right _ (ContainsL.mono_right _ (ContainsL.mono_right _
    (ContainsL.mono_right _ (ContainsL.mono_right _ (ContainsL.mono_right _
      (ContainsL.mono_right _ (containsL_left_append _ _)))))))

theorem tooLargeMsg_contains_limit (est mt : Nat) :
    ContainsStr (tooLargeMsg est mt) (toLocaleString mt) := by
  unfold ContainsStr tooLargeMsg
  simp only [String.data_append]
  exact ContainsL.mono_right _ (ContainsL.mono_right _ (ContainsL.mono_right _
    (ContainsL.mono_right _ (containsL_left_append _ _))))

theorem tooLargeMsg_contains_flag (est mt : Nat) :
    ContainsStr (tooLargeMsg est mt) "askSplitAndSynthesize" := by
  unfold ContainsStr tooLargeMsg
  simp only [String.data_append]
  refine ContainsL.mono_right _ (ContainsL.mono_left _ ?_)
  unfold ContainsL
  decide

/-- Claim C5 counterexample: a 21 MiB document with splitting disabled is
above the single-call threshold, yet it is rejected with the hard-limit
message, which does not contain the askSplitAndSynthesize flag name. -/
theorem too_large_counterexample :
    ((150000 : Int) - 2000 < (estimatedTokensOf bigDoc : Int)) ∧
    processAsk constServer bigDoc "q" 150000 4096 300000 false "document" =
        .err hardLimitMsg [] ∧
      ¬ ContainsStr hardLimitMsg "askSplitAndSynthesize" := by
  refine ⟨?_, ?_, ?_⟩
  · rw [bigDoc_est]
    norm_num
  · unfold processAsk
    rw [if_pos bigDoc_hard]
  · unfold ContainsStr
    decide

/-- Claim C5 (amended): a document within the 20 MiB hard ceiling that
exceeds the single-call threshold with splitting disabled is rejected with
the too-large message, which contains the estimated token count (in its
locale rendering), the configured limit, and the askSplitAndSynthesize flag
name, and zero model calls are made. -/
theorem too_large_rejects (server : Server) (fullText : List Char)
    (ask : String) (askMaxInputTokens askMaxOutputTokens askTimeout : Nat)
    (documentType : String)
    (hhard : fullText.length ≤ HARD_LIMIT_CHARS)
    (hbig : (askMaxInputTokens : Int) - 2000 <
      (estimatedTokensOf fullText : Int)) :
    processAsk server fullText ask askMaxInputTokens askMaxOutputTokens
        askTimeout false documentType =
      .err (tooLargeMsg (estimatedTokensOf fullText) askMaxInputTokens) [] ∧
    ContainsStr (tooLargeMsg (estimatedTokensOf fullText) askMaxInputTokens)
      (toLocaleString (estimatedTokensOf fullText)) ∧
    ContainsStr (tooLargeMsg (estimatedTokensOf fullText) askMaxInputTokens)
      (toLocaleString askMaxInputTokens) ∧
    ContainsStr (tooLargeMsg (estimatedTokensOf fullText) askMaxInputTokens)
      "askSplitAndSynthesize" := by
  refine ⟨?_, tooLargeMsg_contains_est _ _, tooLargeMsg_contains_limit _ _,
    tooLargeMsg_contains_flag _ _⟩
  unfold processAsk
  rw [if_neg (by omega), if_pos (by omega)]
  rfl

theorem too_large_rejects_witness :
    processAsk constServer (List.replicate 100000 'a') "q" 20000 4096 300000
        false "document" =
      .err (tooLargeMsg (estimatedTokensOf (List.replicate 100000 'a')) 20000)
        [] ∧
    ContainsStr
      (tooLargeMsg (estimatedTokensOf (List.replicate 100000 'a')) 20000)
      (toLocaleString (estimatedTokensOf (List.replicate 100000 'a'))) ∧
    ContainsStr
      (tooLargeMsg (estimatedTokensOf (List.replicate 100000 'a')) 20000)
      (toLocaleString 20000) ∧
    ContainsStr
      (tooLargeMsg (estimatedTokensOf (List.replicate 100000 'a')) 20000)
      "askSplitAndSynthesize" :=
  too_large_rejects constServer (List.replicate 100000 'a') "q" 20000 4096
    300000 "document" doc100000_hard (by rw [doc100000_est]; norm_num)

/-- Claim C1 counterexample: a 21 MiB document with splitting enabled exceeds
the single-call threshold, yet `processAsk` rejects on the hard ceiling with
zero model calls instead of returning a chunked result. -/
theorem chunked_counterexample :
    ((150000 : Int) - 2000 < (estimatedTokensOf bigDoc : Int)) ∧
    processAsk constServer bigDoc "q" 150000 4096 300000 true "document" =
      .err hardLimitMsg [] := by
  constructor
  · rw [bigDoc_est]
    norm_num
  · unfold processAsk
    rw [if_pos bigDoc_hard]

/-- Claim C1 (amended): for a document within the 20 MiB hard ceiling whose
estimated token count exceeds `askMaxInputTokens - 2000`, with splitting
enabled and the computed chunk size exceeding the 500-character overlap,
`processAsk` returns `chunksProcessed` equal to the number of chunks produced
by the chunker, issues exactly `chunksProcessed + 1` model calls (one per
chunk, in order, plus a final synthesis call), and the answer equals the text
returned by the synthesis call. -/
theorem chunked_processes_all (server : Server) (fullText : List Char)
    (ask : String) (askMaxInputTokens askMaxOutputTokens askTimeout : Nat)
    (documentType : String)
    (hhard : fullText.length ≤ HARD_LIMIT_CHARS)
    (hbig : (askMaxInputTokens : Int) - 2000 <
      (estimatedTokensOf fullText : Int))
    (hcc : 500 < (askMaxInputTokens - 2000) * 4) :
    ∃ (r : AskResult) (calls : List ModelCall) (synthCall : ModelCall),
      processAsk server fullText ask askMaxInputTokens askMaxOutputTokens
          askTimeout true documentType = .ok r calls ∧
      r.chunksProcessed =
        (chunksPos fullText ((askMaxInputTokens - 2000) * 4) 500 0).length ∧
      calls.length = r.chunksProcessed + 1 ∧
      calls.getLast? = some synthCall ∧
      r.answer = extractResponseText (server synthCall) := by
  unfold processAsk
  rw [if_neg (by omega), if_pos (by omega)]
  simp only [Bool.not_true]
  rw [if_neg (by simp)]
  unfold processChunked
  rw [splitChunks_eq_chunksPos fullText askMaxInputTokens hcc]
  set chunks := chunksPos fullText ((askMaxInputTokens - 2000) * 4) 500 0
    with hchunks
  set processed := chunks.enum.map (fun p =>
    processSingleChunk server (String.mk p.2) ask askMaxOutputTokens
      askTimeout documentType (some (p.1 + 1, chunks.length))) with hproc
  set synth := synthesizeResults server (processed.map (fun q => q.1.text))
    ask askMaxOutputTokens askTimeout documentType with hsynth
  refine ⟨{ answer := synth.1.text, model := synth.1.model,
            chunksProcessed := chunks.length },
    processed.map (fun q => q.2) ++ [synth.2], synth.2, rfl, rfl, ?_, ?_, ?_⟩
  · simp only [List.length_append, List.length_map, List.length_cons,
      List.length_nil, hproc, List.enum_length]
  · exact List.getLast?_concat _
  · rw [hsynth]
    rfl

theorem chunked_processes_all_witness :
    ∃ (r : AskResult) (calls : List ModelCall) (synthCall : ModelCall),
      processAsk constServer (List.replicate 100000 'a') "q" 20000 4096 300000
          true "document" = .ok r calls ∧
      r.chunksProcessed = 2 ∧ calls.length = 3 ∧
      calls.getLast? = some synthCall ∧
      r.answer = extractResponseText (constServer synthCall) := by
  obtain ⟨r, calls, sc, h1, h2, h3, h4, h5⟩ :=
    chunked_processes_all constServer (List.replicate 100000 'a') "q" 20000
      4096 300000 "document" doc100000_hard (by rw [doc100000_est]; norm_num)
      (by norm_num)
  have hnum : (chunksPos (List.replicate 100000 'a') ((20000 - 2000) * 4) 500
      0).length = 2 := by
    rw [chunksPos_eq, if_pos (by norm_num)]
    rw [chunksPos_eq, if_pos (by norm_num)]
    rw [chunksPos_eq, if_neg (by norm_num)]
    rfl
  exact ⟨r, calls, sc, h1, h2.trans hnum, by omega, h4, h5⟩

/-! ### Chunk coverage and overlap (claim C4) -/

/-- Concatenation of a chunk list with the `ov`-character overlap prefix of
every chunk after the first removed. -/
def reconChunks (ov : Nat) : List (List Char) → List Char
  | [] => []
  | c :: rest => c ++ (rest.map (List.drop ov)).flatten

theorem drop_take_append_drop (t : List Char) (a b : Nat) (hab : a ≤ b)
    (hb : b ≤ t.length) : (t.take b).drop a ++ t.drop b = t.drop a := by
  conv_rhs => rw [← List.take_append_drop b t]
  rw [List.drop_append_eq_append_drop, List.length_take]
  have h0 : a - min b t.length = 0 := by omega
  rw [h0, List.drop_zero]

theorem chunksPos_reconTail (t : List Char) (cc ov : Nat) (hov : ov < cc) :
    ∀ i : Nat, ((chunksPos t cc ov i).map (List.drop ov)).flatten =
      t.drop (i + ov) := by
  intro i
  refine chunksPos.induct t cc ov
    (fun i => ((chunksPos t cc ov i).map (List.drop ov)).flatten =
      t.drop (i + ov)) ?_ ?_ i
  · intro i h ih
    rw [chunksPos_eq, if_pos h, List.map_cons, List.flatten_cons, ih]
    rw [List.drop_drop]
    have hidx : i + (cc - ov) + ov = i + cc := by omega
    rw [hidx]
    by_cases hc : i + cc ≤ t.length
    · have hmin : min (i + cc) t.length = i + cc := by omega
      rw [hmin]
      exact drop_take_append_drop t (i + ov) (i + cc) (by omega) hc
    · have hmin : min (i + cc) t.length = t.length := by omega
      rw [hmin, List.take_length]
      rw [List.drop_eq_nil_of_le (show t.length ≤ i + cc by omega)]
      simp
  · intro i h
    rw [chunksPos_eq, if_neg h]
    have hi : t.length ≤ i := by
      rcases Nat.lt_or_ge i t.length with h1 | h1
      · exact absurd ⟨h1, hov⟩ h
      · exact h1
    simp only [List.map_nil, List.flatten_nil]
    exact (List.drop_eq_nil_of_le (by omega)).symm

theorem reconChunks_chunksPos (t : List Char) (cc ov : Nat) (hov : ov < cc) :
    reconChunks ov (chunksPos t cc ov 0) = t := by
  rw [chunksPos_eq]
  by_cases h0 : 0 < t.length ∧ ov < cc
  · rw [if_pos h0]
    show ((t.take (min (0 + cc) t.length)).drop 0) ++
      ((chunksPos t cc ov (0 + (cc - ov))).map (List.drop ov)).flatten = t
    rw [chunksPos_reconTail t cc ov hov (0 + (cc - ov)), List.drop_zero]
    have hidx : 0 + (cc - ov) + ov = cc := by omega
    rw [hidx]
    by_cases hc : cc ≤ t.length
    · have hmin : min (0 + cc) t.length = cc := by omega
      rw [hmin]
      exact List.take_append_drop cc t
    · have hmin : min (0 + cc) t.length = t.length := by omega
      rw [hmin, List.take_length,
        List.drop_eq_nil_of_le (show t.length ≤ cc by omega)]
      simp
  · rw [if_neg h0]
    have h1 : t.length = 0 := by
      rcases Nat.eq_zero_or_pos t.length with h1 | h1
      · exact h1
      · exact absurd ⟨h1, hov⟩ h0
    rw [List.length_eq_zero.mp h1]
    rfl

theorem chunksPos_chain (t : List Char) (cc ov : Nat) (hov : ov < cc) :
    ∀ i : Nat, List.Chain'
      (fun a b => b.take ov <:+ a ∧ (a.length = cc → (b.take ov).length = ov))
      (chunksPos t cc ov i) := by
  intro i
  refine chunksPos.induct t cc ov
    (fun i => List.Chain'
      (fun a b => b.take ov <:+ a ∧ (a.length = cc → (b.take ov).length = ov))
      (chunksPos t cc ov i)) ?_ ?_ i
  · intro i h ih
    rw [chunksPos_eq, if_pos h]
    rw [List.chain'_cons']
    refine ⟨?_, ih⟩
    intro b hb
    rw [chunksPos_eq] at hb
    by_cases h2 : i + (cc - ov) < t.length ∧ ov < cc
    · rw [if_pos h2] at hb
      simp only [List.head?_cons, Option.mem_def, Option.some.injEq] at hb
      subst hb
      constructor
      · have hsuffix :
            ((t.take (min (i + (cc - ov) + cc) t.length)).drop
              (i + (cc - ov))).take ov =
            ((t.take (min (i + cc) t.length)).drop i).drop (cc - ov) := by
          rw [List.take_drop, List.take_take, List.drop_drop]
          have h3 : min (i + (cc - ov) + ov) (min (i + (cc - ov) + cc)
              t.length) = min (i + cc) t.length := by omega
          rw [h3]
        rw [hsuffix]
        exact List.drop_suffix _ _
      · intro hlen
        have hal : ((t.take (min (i + cc) t.length)).drop i).length =
            min (i + cc) t.length - i := by
          rw [List.length_drop, List.length_take]
          omega
        rw [hal] at hlen
        rw [List.length_take, List.length_drop, List.length_take]
        omega
    · rw [if_neg h2] at hb
      simp at hb
  · intro i h
    rw [chunksPos_eq, if_neg h]
    exact List.chain'_nil

/-- Claim C4 counterexample: with computed chunk size 900 (above the
500-character overlap) on a 1000-character text, the chunker produces three
chunks whose final consecutive pair shares only 200 characters: the last
chunk is 200 characters long, so no 500-character overlap region exists. -/
theorem chunker_overlap_counterexample :
    splitChunks (List.replicate 1000 'a') 2225 =
      some [List.replicate 900 'a', List.replicate 600 'a',
        List.replicate 200 'a'] ∧
    ((List.replicate 200 'a').take 500).length ≠ 500 := by
  constructor
  · rw [splitChunks_eq_chunksPos _ _ (by norm_num)]
    rw [chunksPos_eq, if_pos (by norm_num)]
    rw [chunksPos_eq, if_pos (by norm_num)]
    rw [chunksPos_eq, if_pos (by norm_num)]
    rw [chunksPos_eq, if_neg (by norm_num)]
    norm_num [List.take_replicate, List.drop_replicate]
  · norm_num [List.take_replicate]

/-- Claim C4 (amended): for every text and computed chunk size strictly above
the 500-character overlap, the chunker produces a finite ordered chunk list
such that dropping the 500-character overlap prefix of every chunk after the
first and concatenating reconstructs the original text exactly (every
position covered, overlap regions counted once), and the first 500
characters of each chunk after the first are a suffix of its predecessor —
of length exactly 500 whenever the predecessor is a full-size chunk; the
final pair may share fewer than 500 characters when the text ends early. -/
theorem chunker_coverage (t : List Char) (askMaxInputTokens : Nat)
    (hcc : 500 < (askMaxInputTokens - 2000) * 4) :
    ∃ chunks : List (List Char),
      splitChunks t askMaxInputTokens = some chunks ∧
      reconChunks 500 chunks = t ∧
      List.Chain' (fun a b => b.take 500 <:+ a ∧
        (a.length = (askMaxInputTokens - 2000) * 4 →
          (b.take 500).length = 500)) chunks :=
  ⟨_, splitChunks_eq_chunksPos t askMaxInputTokens hcc,
    reconChunks_chunksPos t _ 500 hcc,
    chunksPos_chain t _ 500 hcc 0⟩

theorem chunker_coverage_witness :
    ∃ chunks : List (List Char),
      splitChunks (List.replicate 1000 'a') 2225 = some chunks ∧
      reconChunks 500 chunks = List.replicate 1000 'a' ∧
      List.Chain' (fun a b => b.take 500 <:+ a ∧
        (a.length = (2225 - 2000) * 4 → (b.take 500).length = 500)) chunks :=
  chunker_coverage (List.replicate 1000 'a') 2225 (by norm_num)

/-! ### Classification sampler

Embedding of `sampleTextForClassification` from `stash/classify.js`.  The
injected random source `rng` enters only through
`Math.floor(rng() * (maxStart + 1))`; that composite draw is modelled by an
injected function `draws : Nat → Nat` giving the k-th drawn offset (any
value is admissible, since `pushUnique` clamps its argument into
`[0, maxStart]`).  `Array.prototype.sort` with the comparator
`(a, b) => a.pos - b.pos` is a stable ascending sort, modelled by
`List.insertionSort`.  Real-valued expressions are modelled by equivalent
integer forms: `Math.abs(e.pos - pos) < chunkSize / 2` as
`2 * |e.pos - pos| < chunkSize`, and
`Math.max(0, Math.floor(len / 2 - chunkSize / 2))` as
`(len - chunkSize) / 2` when `chunkSize ≤ len` and `0` otherwise. -/

def MAX_CLASSIFICATION_CHARS : Nat := 50000

def SAMPLE_CHUNKS : Nat := 5

structure SamplePos where
  pos : Nat
  label : String
deriving DecidableEq

/-- The collision test of `pushUnique`. -/
def collides (entries : List SamplePos) (chunkSize pos : Nat) : Bool :=
  entries.any (fun e => 2 * (max e.pos pos - min e.pos pos) < chunkSize)

/-- The bounded nudge loop of `pushUnique` (at most 10 attempts; the fuel is
`10 - attempts`). -/
def nudgeLoop (entries : List SamplePos) (chunkSize maxStart : Nat) :
    Nat → Nat → Nat
  | pos, 0 => pos
  | pos, fuel + 1 =>
    if collides entries chunkSize pos then
      nudgeLoop entries chunkSize maxStart (min (pos + chunkSize) maxStart) fuel
    else pos

/-- `pushUnique(position, label)`: clamp into `[0, maxStart]`, nudge while
colliding, then append. -/
def pushUnique (entries : List SamplePos) (chunkSize maxStart : Nat)
    (position : Nat) (label : String) : List SamplePos :=
  entries ++
    [{ pos := nudgeLoop entries chunkSize maxStart (min position maxStart) 10,
       label := label }]

/-- The whitespace code points removed by `String.prototype.trim`. -/
def isJsWhitespace (c : Char) : Bool :=
  c == ' ' || c == Char.ofNat 9 || c == Char.ofNat 10 || c == Char.ofNat 11 ||
    c == Char.ofNat 12 || c == Char.ofNat 13 || c == Char.ofNat 160 ||
    c == Char.ofNat 65279 || c == Char.ofNat 8232 || c == Char.ofNat 8233

def trimRight (l : List Char) : List Char :=
  (l.reverse.dropWhile isJsWhitespace).reverse

/-- JS `trim()` (both ends). -/
def jsTrim (l : List Char) : List Char :=
  (trimRight l).dropWhile isJsWhitespace

/-- `Array.prototype.join(sep)`. -/
def joinSep (sep : List Char) : List (List Char) → List Char
  | [] => []
  | [x] => x
  | x :: y :: rest => x ++ sep ++ joinSep sep (y :: rest)

/-- The rendering of one chosen segment: a `[Sample label @pos]` header line
followed by `text.slice(pos, pos + chunkSize)`. -/
def renderSegment (text : List Char) (chunkSize : Nat) (s : SamplePos) :
    List Char :=
  ("\n[Sample " ++ s.label ++ " @" ++ toString s.pos ++ "]\n").data ++
    (text.take (s.pos + chunkSize)).drop s.pos

def clampedChunkCountOf (chunkCount : Nat) : Nat := max 3 (min chunkCount 8)

def chunkSizeOf (maxChars chunkCount : Nat) : Nat :=
  max 200 (maxChars / clampedChunkCountOf chunkCount)

def maxStartOf (len maxChars chunkCount : Nat) : Nat :=
  len - chunkSizeOf maxChars chunkCount

def midStartOf (len maxChars chunkCount : Nat) : Nat :=
  if chunkSizeOf maxChars chunkCount ≤ len then
    (len - chunkSizeOf maxChars chunkCount) / 2
  else 0

def earlyStartOf (len maxChars chunkCount : Nat) : Nat :=
  min (chunkSizeOf maxChars chunkCount) (maxStartOf len maxChars chunkCount)

/-- The four fixed pushes (start, early, middle, end), in order. -/
def sampleBase (len maxChars chunkCount : Nat) : List SamplePos :=
  pushUnique (pushUnique (pushUnique (pushUnique []
    (chunkSizeOf maxChars chunkCount) (maxStartOf len maxChars chunkCount)
    0 "start")
    (chunkSizeOf maxChars chunkCount) (maxStartOf len maxChars chunkCount)
    (earlyStartOf len maxChars chunkCount) "early")
    (chunkSizeOf maxChars chunkCount) (maxStartOf len maxChars chunkCount)
    (midStartOf len maxChars chunkCount) "middle")
    (chunkSizeOf maxChars chunkCount) (maxStartOf len maxChars chunkCount)
    (maxStartOf len maxChars chunkCount) "end"

/-- The fixed pushes followed by the random fills. -/
def samplePositions (len maxChars chunkCount : Nat) (draws : Nat → Nat) :
    List SamplePos :=
  (List.range (clampedChunkCountOf chunkCount -
      (sampleBase len maxChars chunkCount).length)).foldl
    (fun acc k => pushUnique acc (chunkSizeOf maxChars chunkCount)
      (maxStartOf len maxChars chunkCount) (draws k) "random")
    (sampleBase len maxChars chunkCount)

/-- `sampleTextForClassification(text, opts)`. -/
def sampleTextForClassification (text : List Char)
    (maxChars chunkCount : Nat) (draws : Nat → Nat) : List Char :=
  if text.length ≤ maxChars then text
  else
    jsTrim (joinSep ['\n']
      ((List.insertionSort (fun a b => a.pos ≤ b.pos)
          (samplePositions text.length maxChars chunkCount draws)).map
        (renderSegment text (chunkSizeOf maxChars chunkCount))))

/-! ### Trim and join lemmas -/

theorem containsL_nil (l : List Char) : ContainsL l [] := by
  unfold ContainsL
  cases l <;> rfl

theorem dropWhile_head_false (p : Char → Bool) :
    ∀ (l : List Char) (c : Char) (rest : List Char),
      l.dropWhile p = c :: rest → p c = false := by
  intro l
  induction l with
  | nil =>
    intro c rest h
    simp [List.dropWhile] at h
  | cons a l ih =>
    intro c rest h
    rw [List.dropWhile_cons] at h
    by_cases hp : p a
    · rw [if_pos hp] at h
      exact ih c rest h
    · rw [if_neg hp] at h
      have hac : a = c := by injection h
      subst hac
      exact Bool.eq_false_iff.mpr hp

theorem dropWhile_idem (p : Char → Bool) (l : List Char) :
    (l.dropWhile p).dropWhile p = l.dropWhile p := by
  rcases h : l.dropWhile p with _ | ⟨c, rest⟩
  · rfl
  · have hc : p c = false := dropWhile_head_false p l c rest h
    rw [List.dropWhile_cons, hc]
    simp

theorem dropWhile_append_of_ne (p : Char → Bool) :
    ∀ (l1 l2 : List Char), l1.dropWhile p ≠ [] →
      (l1 ++ l2).dropWhile p = l1.dropWhile p ++ l2 := by
  intro l1
  induction l1 with
  | nil =>
    intro l2 h
    simp [List.dropWhile] at h
  | cons a l ih =>
    intro l2 h
    rw [List.dropWhile_cons] at h
    rw [List.cons_append, List.dropWhile_cons]
    by_cases hp : p a
    · rw [if_pos hp]
      rw [if_pos hp] at h
      rw [List.dropWhile_cons, if_pos hp]
      exact ih l2 h
    · rw [if_neg hp]
      rw [List.dropWhile_cons, if_neg hp, List.cons_append]

theorem dropWhile_append_of_all (p : Char → Bool) :
    ∀ (l1 l2 : List Char), (∀ c ∈ l1, p c = true) →
      (l1 ++ l2).dropWhile p = l2.dropWhile p := by
  intro l1
  induction l1 with
  | nil =>
    intro l2 _
    rfl
  | cons a l ih =>
    intro l2 h
    rw [List.cons_append, List.dropWhile_cons,
      if_pos (h a (List.mem_cons_self a l))]
    exact ih l2 (fun c hc => h c (List.mem_cons_of_mem a hc))

theorem trimRight_decomp (l : List Char) :
    ∃ w, l = trimRight l ++ w ∧ ∀ c ∈ w, isJsWhitespace c = true := by
  refine ⟨(l.reverse.takeWhile isJsWhitespace).reverse, ?_, ?_⟩
  · have h : l.reverse = l.reverse.takeWhile isJsWhitespace ++
        l.reverse.dropWhile isJsWhitespace :=
      (List.takeWhile_append_dropWhile isJsWhitespace l.reverse).symm
    calc l = l.reverse.reverse := l.reverse_reverse.symm
      _ = (l.reverse.takeWhile isJsWhitespace ++
          l.reverse.dropWhile isJsWhitespace).reverse :=
        congrArg List.reverse h
      _ = (l.reverse.dropWhile isJsWhitespace).reverse ++
          (l.reverse.takeWhile isJsWhitespace).reverse := by
        rw [List.reverse_append]
      _ = trimRight l ++ (l.reverse.takeWhile isJsWhitespace).reverse := rfl
  · intro c hc
    rw [List.mem_reverse] at hc
    exact List.mem_takeWhile_imp hc

theorem trimRight_append_of_exists (X Y : List Char)
    (h : ∃ c ∈ Y, isJsWhitespace c = false) :
    trimRight (X ++ Y) = X ++ trimRight Y := by
  have hne : Y.reverse.dropWhile isJsWhitespace ≠ [] := by
    intro hnil
    obtain ⟨c, hc, hcf⟩ := h
    have hall := List.dropWhile_eq_nil_iff.mp hnil c (List.mem_reverse.mpr hc)
    rw [hall] at hcf
    exact Bool.noConfusion hcf
  unfold trimRight
  rw [List.reverse_append]
  rw [dropWhile_append_of_ne isJsWhitespace Y.reverse X.reverse hne]
  rw [List.reverse_append, List.reverse_reverse]

theorem trimRight_append_of_all (X Y : List Char)
    (h : ∀ c ∈ Y, isJsWhitespace c = true) :
    trimRight (X ++ Y) = trimRight X := by
  unfold trimRight
  rw [List.reverse_append]
  rw [dropWhile_append_of_all isJsWhitespace Y.reverse X.reverse
    (fun c hc => h c (List.mem_reverse.mp hc))]

theorem trimRight_idem (l : List Char) :
    trimRight (trimRight l) = trimRight l := by
  unfold trimRight
  rw [List.reverse_reverse, dropWhile_idem]

theorem trimRight_no_ws_end (l : List Char) (hne : trimRight l ≠ []) :
    ∃ c ∈ trimRight l, isJsWhitespace c = false := by
  unfold trimRight at hne ⊢
  rcases h : l.reverse.dropWhile isJsWhitespace with _ | ⟨c, rest⟩
  · rw [h] at hne
    simp at hne
  · refine ⟨c, ?_, dropWhile_head_false _ _ _ _ h⟩
    exact List.mem_reverse.mpr (List.mem_cons_self _ _)

theorem dropWhile_ne_nil_of_exists (X : List Char)
    (hX : ∃ c ∈ X, isJsWhitespace c = false) :
    X.dropWhile isJsWhitespace ≠ [] := by
  intro hnil
  obtain ⟨c, hc, hcf⟩ := hX
  have := List.dropWhile_eq_nil_iff.mp hnil c hc
  rw [this] at hcf
  exact Bool.noConfusion hcf

/-- Key trimming lemma: in `trim (X ++ m ++ B)`, the middle part survives up
to its own trailing whitespace, provided `X` has a non-whitespace
character. -/
theorem containsL_jsTrim (X m B : List Char)
    (hX : ∃ c ∈ X, isJsWhitespace c = false) :
    ContainsL (jsTrim (X ++ m ++ B)) (trimRight m) := by
  obtain ⟨w, hw, hwall⟩ := trimRight_decomp m
  have hXne := dropWhile_ne_nil_of_exists X hX
  have h1 : X ++ m ++ B = (X ++ trimRight m) ++ (w ++ B) := by
    conv_lhs => rw [hw]
    simp [List.append_assoc]
  by_cases hB : ∃ c ∈ B, isJsWhitespace c = false
  · have hWB : ∃ c ∈ w ++ B, isJsWhitespace c = false := by
      obtain ⟨c, hc, hcf⟩ := hB
      exact ⟨c, List.mem_append_right w hc, hcf⟩
    unfold jsTrim
    rw [h1, trimRight_append_of_exists _ _ hWB]
    have h2 : (X ++ trimRight m) ++ trimRight (w ++ B) =
        X ++ (trimRight m ++ trimRight (w ++ B)) := by
      simp [List.append_assoc]
    rw [h2, dropWhile_append_of_ne isJsWhitespace X _ hXne]
    exact containsL_of_decomp (show X.dropWhile isJsWhitespace ++
      (trimRight m ++ trimRight (w ++ B)) =
      X.dropWhile isJsWhitespace ++ trimRight m ++ trimRight (w ++ B) by
        simp [List.append_assoc])
  · have hBall : ∀ c ∈ B, isJsWhitespace c = true := by
      intro c hc
      by_contra hcf
      exact hB ⟨c, hc, Bool.eq_false_iff.mpr hcf⟩
    have hWBall : ∀ c ∈ w ++ B, isJsWhitespace c = true := by
      intro c hc
      rcases List.mem_append.mp hc with h2 | h2
      · exact hwall c h2
      · exact hBall c h2
    unfold jsTrim
    rw [h1, trimRight_append_of_all _ _ hWBall]
    by_cases hm : trimRight m = []
    · rw [hm]
      exact containsL_nil _
    · rw [trimRight_append_of_exists _ _ (trimRight_no_ws_end m hm),
        trimRight_idem]
      rw [dropWhile_append_of_ne isJsWhitespace X _ hXne]
      exact containsL_of_decomp (show X.dropWhile isJsWhitespace ++ trimRight m =
        X.dropWhile isJsWhitespace ++ trimRight m ++ [] by simp)

theorem joinSep_mem (sep : List Char) :
    ∀ (L : List (List Char)) (x : List Char), x ∈ L →
      ∃ A B, joinSep sep L = A ++ x ++ B := by
  intro L
  induction L with
  | nil =>
    intro x hx
    simp at hx
  | cons y ys ih =>
    intro x hx
    rcases List.mem_cons.mp hx with rfl | hx2
    · cases ys with
      | nil => exact ⟨[], [], by simp [joinSep]⟩
      | cons z zs =>
        exact ⟨[], sep ++ joinSep sep (z :: zs), by
          show joinSep sep (x :: z :: zs) = [] ++ x ++ (sep ++ joinSep sep (z :: zs))
          rw [show joinSep sep (x :: z :: zs) =
            x ++ sep ++ joinSep sep (z :: zs) from rfl]
          simp [List.append_assoc]⟩
    · cases ys with
      | nil => simp at hx2
      | cons z zs =>
        obtain ⟨A, B, hAB⟩ := ih x hx2
        refine ⟨y ++ sep ++ A, B, ?_⟩
        rw [show joinSep sep (y :: z :: zs) =
          y ++ sep ++ joinSep sep (z :: zs) from rfl, hAB]
        simp [List.append_assoc]

/-! ### Sampler position lemmas -/

theorem nudgeLoop_maxStart (entries : List SamplePos) (cs ms : Nat) :
    ∀ fuel, nudgeLoop entries cs ms ms fuel = ms := by
  intro fuel
  induction fuel with
  | zero => rfl
  | succ fuel ih =>
    show (if collides entries cs ms then
      nudgeLoop entries cs ms (min (ms + cs) ms) fuel else ms) = ms
    by_cases hc : collides entries cs ms
    · rw [if_pos hc, show min (ms + cs) ms = ms from by omega]
      exact ih
    · rw [if_neg hc]

theorem nudgeLoop_no_collision (entries : List SamplePos) (cs ms pos fuel : Nat)
    (h : collides entries cs pos = false) :
    nudgeLoop entries cs ms pos (fuel + 1) = pos := by
  show (if collides entries cs pos then
    nudgeLoop entries cs ms (min (pos + cs) ms) fuel else pos) = pos
  rw [h]
  simp

theorem mem_pushUnique_left (entries : List SamplePos) (cs ms p : Nat)
    (lab : String) (s : SamplePos) (h : s ∈ entries) :
    s ∈ pushUnique entries cs ms p lab :=
  List.mem_append_left _ h

theorem mem_pushUnique_new (entries : List SamplePos) (cs ms p : Nat)
    (lab : String) :
    ({ pos := nudgeLoop entries cs ms (min p ms) 10, label := lab } :
      SamplePos) ∈ pushUnique entries cs ms p lab :=
  List.mem_append_right _ (List.mem_singleton.mpr rfl)

theorem mem_foldl_pushUnique (cs ms : Nat) (draws : Nat → Nat) (s : SamplePos) :
    ∀ (ks : List Nat) (acc : List SamplePos), s ∈ acc →
      s ∈ ks.foldl
        (fun acc k => pushUnique acc cs ms (draws k) "random") acc := by
  intro ks
  induction ks with
  | nil =>
    intro acc h
    exact h
  | cons k ks ih =>
    intro acc h
    rw [List.foldl_cons]
    exact ih _ (mem_pushUnique_left _ _ _ _ _ _ h)

theorem mem_samplePositions_of_mem_base (len mc cc : Nat) (draws : Nat → Nat)
    (s : SamplePos) (h : s ∈ sampleBase len mc cc) :
    s ∈ samplePositions len mc cc draws :=
  mem_foldl_pushUnique _ _ draws s _ _ h

theorem start_mem_sampleBase (len mc cc : Nat) :
    ({ pos := 0, label := "start" } : SamplePos) ∈ sampleBase len mc cc := by
  unfold sampleBase
  refine mem_pushUnique_left _ _ _ _ _ _
    (mem_pushUnique_left _ _ _ _ _ _ (mem_pushUnique_left _ _ _ _ _ _ ?_))
  have h0 : nudgeLoop [] (chunkSizeOf mc cc) (maxStartOf len mc cc)
      (min 0 (maxStartOf len mc cc)) 10 = 0 := by
    rw [show min 0 (maxStartOf len mc cc) = 0 from by omega]
    exact nudgeLoop_no_collision [] _ _ 0 9 rfl
  have := mem_pushUnique_new [] (chunkSizeOf mc cc) (maxStartOf len mc cc)
    0 "start"
  rwa [h0] at this

theorem end_mem_sampleBase (len mc cc : Nat) :
    ({ pos := maxStartOf len mc cc, label := "end" } : SamplePos) ∈
      sampleBase len mc cc := by
  unfold sampleBase
  have h0 : nudgeLoop
      (pushUnique (pushUnique (pushUnique [] (chunkSizeOf mc cc)
        (maxStartOf len mc cc) 0 "start") (chunkSizeOf mc cc)
        (maxStartOf len mc cc) (earlyStartOf len mc cc) "early")
        (chunkSizeOf mc cc) (maxStartOf len mc cc) (midStartOf len mc cc)
        "middle")
      (chunkSizeOf mc cc) (maxStartOf len mc cc)
      (min (maxStartOf len mc cc) (maxStartOf len mc cc)) 10 =
      maxStartOf len mc cc := by
    rw [min_self]
    exact nudgeLoop_maxStart _ _ _ 10
  have := mem_pushUnique_new
    (pushUnique (pushUnique (pushUnique [] (chunkSizeOf mc cc)
      (maxStartOf len mc cc) 0 "start") (chunkSizeOf mc cc)
      (maxStartOf len mc cc) (earlyStartOf len mc cc) "early")
      (chunkSizeOf mc cc) (maxStartOf len mc cc) (midStartOf len mc cc)
      "middle")
    (chunkSizeOf mc cc) (maxStartOf len mc cc) (maxStartOf len mc cc) "end"
  rwa [h0] at this

theorem middle_mem_sampleBase (len mc cc : Nat)
    (hlen : 4 * chunkSizeOf mc cc + 2 ≤ len) :
    ({ pos := (len - chunkSizeOf mc cc) / 2, label := "middle" } :
      SamplePos) ∈ sampleBase len mc cc := by
  have hcs200 : 200 ≤ chunkSizeOf mc cc := le_max_left _ _
  have hmid : midStartOf len mc cc = (len - chunkSizeOf mc cc) / 2 := by
    unfold midStartOf
    rw [if_pos (by omega)]
  have hearly : earlyStartOf len mc cc = chunkSizeOf mc cc := by
    unfold earlyStartOf maxStartOf
    omega
  have hl1 : pushUnique [] (chunkSizeOf mc cc) (maxStartOf len mc cc) 0
      "start" = [{ pos := 0, label := "start" }] := by
    unfold pushUnique
    rw [show min 0 (maxStartOf len mc cc) = 0 from by omega]
    rw [nudgeLoop_no_collision [] _ _ 0 9 rfl]
    rfl
  have hcol1 : collides [{ pos := 0, label := "start" }]
      (chunkSizeOf mc cc) (chunkSizeOf mc cc) = false := by
    simp [collides]
    omega
  have hl2 : pushUnique [{ pos := 0, label := "start" }] (chunkSizeOf mc cc)
      (maxStartOf len mc cc) (earlyStartOf len mc cc) "early" =
      [{ pos := 0, label := "start" },
       { pos := chunkSizeOf mc cc, label := "early" }] := by
    unfold pushUnique
    rw [hearly]
    rw [show min (chunkSizeOf mc cc) (maxStartOf len mc cc) =
      chunkSizeOf mc cc from by unfold maxStartOf; omega]
    rw [nudgeLoop_no_collision _ _ _ _ 9 hcol1]
    rfl
  have hcol2 : collides [{ pos := 0, label := "start" },
      { pos := chunkSizeOf mc cc, label := "early" }] (chunkSizeOf mc cc)
      ((len - chunkSizeOf mc cc) / 2) = false := by
    simp [collides]
    omega
  have hmin : min (midStartOf len mc cc) (maxStartOf len mc cc) =
      (len - chunkSizeOf mc cc) / 2 := by
    rw [hmid]
    unfold maxStartOf
    omega
  unfold sampleBase
  refine mem_pushUnique_left _ _ _ _ _ _ ?_
  rw [hl1, hl2]
  have hmem := mem_pushUnique_new [{ pos := 0, label := "start" },
    { pos := chunkSizeOf mc cc, label := "early" }] (chunkSizeOf mc cc)
    (maxStartOf len mc cc) (midStartOf len mc cc) "middle"
  rw [hmin] at hmem
  rw [nudgeLoop_no_collision _ _ _ _ 9 hcol2] at hmem
  exact hmem

/-- Any chosen position yields its rendered slice (up to its own trailing
whitespace) inside the sampled output. -/
theorem sample_contains_of_mem (text : List Char) (maxChars chunkCount : Nat)
    (draws : Nat → Nat) (h : maxChars < text.length) (s : SamplePos)
    (hs : s ∈ samplePositions text.length maxChars chunkCount draws) :
    ContainsL (sampleTextForClassification text maxChars chunkCount draws)
      (trimRight ((text.take (s.pos + chunkSizeOf maxChars chunkCount)).drop
        s.pos)) := by
  unfold sampleTextForClassification
  rw [if_neg (by omega)]
  have hsort : s ∈ List.insertionSort (fun a b => a.pos ≤ b.pos)
      (samplePositions text.length maxChars chunkCount draws) :=
    (List.perm_insertionSort _ _).mem_iff.mpr hs
  have hmem2 := List.mem_map_of_mem
    (renderSegment text (chunkSizeOf maxChars chunkCount)) hsort
  obtain ⟨A, B, hAB⟩ := joinSep_mem ['\n'] _ _ hmem2
  rw [hAB]
  have hre : renderSegment text (chunkSizeOf maxChars chunkCount) s =
      ("\n[Sample " ++ s.label ++ " @" ++ toString s.pos ++ "]\n").data ++
        ((text.take (s.pos + chunkSizeOf maxChars chunkCount)).drop s.pos) :=
    rfl
  rw [hre]
  have hgroup : A ++ (("\n[Sample " ++ s.label ++ " @" ++ toString s.pos ++
      "]\n").data ++
      ((text.take (s.pos + chunkSizeOf maxChars chunkCount)).drop s.pos)) ++ B
      = (A ++ ("\n[Sample " ++ s.label ++ " @" ++ toString s.pos ++
        "]\n").data) ++
        ((text.take (s.pos + chunkSizeOf maxChars chunkCount)).drop s.pos) ++
        B := by
    simp [List.append_assoc]
  rw [hgroup]
  apply containsL_jsTrim
  refine ⟨'[', ?_, by decide⟩
  apply List.mem_append_right
  simp only [String.data_append]
  refine List.mem_append_left _ (List.mem_append_left _
    (List.mem_append_left _ (List.mem_append_left _ ?_)))
  decide

/-- The reference example text of the spec. -/
def exText : List Char :=
  "STARTTOKEN".data ++ List.replicate 9800 'a' ++ "MIDTOKEN".data ++
    List.replicate 9800 'b' ++ "ENDTOKEN".data

theorem exText_length : exText.length = 19626 := by
  unfold exText
  simp only [List.length_append, List.length_replicate]
  norm_num [show ("STARTTOKEN".data).length = 10 from rfl,
    show ("MIDTOKEN".data).length = 8 from rfl,
    show ("ENDTOKEN".data).length = 8 from rfl]

def midText : List Char :=
  List.replicate 402 'a' ++ "MIDTOKEN".data ++ List.replicate 394 'b'

theorem midText_length : midText.length = 804 := by
  unfold midText
  simp only [List.length_append, List.length_replicate]
  norm_num [show ("MIDTOKEN".data).length = 8 from rfl]

set_option maxRecDepth 100000 in
/-- Claim C9 counterexample: with budget 603 and chunk count 3 on an
804-character text, the dedup nudge displaces the middle sample (initial
offset 301 collides with the early sample at 201, so it is nudged to 502),
and positions 402 to 501 are never sampled: the marker MIDTOKEN sitting at
the exact midpoint (offset 402) does not appear in the sampled output, even
though the text is strictly longer than the budget. -/
theorem sampler_midpoint_counterexample :
    603 < midText.length ∧
    ContainsL midText "MIDTOKEN".data ∧
    ¬ ContainsL (sampleTextForClassification midText 603 3 (fun _ => 0))
      "MIDTOKEN".data := by
  refine ⟨?_, ?_, ?_⟩
  · rw [midText_length]
    norm_num
  · exact containsL_of_decomp (show midText = List.replicate 402 'a' ++
      "MIDTOKEN".data ++ List.replicate 394 'b' from rfl)
  · unfold ContainsL
    decide

/-- Claim C9 (amended): for every text strictly longer than the budget, the
sampled output contains the start excerpt (offset 0) and the end excerpt
(offset maxStart), each up to its own trailing whitespace; the midpoint is
covered as well whenever the text is at least `4 * chunkSize + 2` characters
(always true for the default budget 50000 and count 5, where
`chunkSize = 10000`), though not in general (see the counterexample).  The
reference example fits the default budget, is returned unchanged, and
contains all three markers. -/
theorem sampler_boundary_coverage :
    (∀ (text : List Char) (maxChars chunkCount : Nat) (draws : Nat → Nat),
        maxChars < text.length →
        ContainsL (sampleTextForClassification text maxChars chunkCount draws)
          (trimRight ((text.take
            (0 + chunkSizeOf maxChars chunkCount)).drop 0)) ∧
        ContainsL (sampleTextForClassification text maxChars chunkCount draws)
          (trimRight ((text.take (maxStartOf text.length maxChars chunkCount +
            chunkSizeOf maxChars chunkCount)).drop
            (maxStartOf text.length maxChars chunkCount))) ∧
        (4 * chunkSizeOf maxChars chunkCount + 2 ≤ text.length →
          ∃ p, p ≤ text.length / 2 ∧
            text.length / 2 < p + chunkSizeOf maxChars chunkCount ∧
            ContainsL
              (sampleTextForClassification text maxChars chunkCount draws)
              (trimRight ((text.take
                (p + chunkSizeOf maxChars chunkCount)).drop p)))) ∧
    (sampleTextForClassification exText 50000 5 (fun _ => 0) = exText ∧
      ContainsL exText "STARTTOKEN".data ∧
      ContainsL exText "MIDTOKEN".data ∧
      ContainsL exText "ENDTOKEN".data) := by
  constructor
  · intro text mc cc draws h
    refine ⟨?_, ?_, ?_⟩
    · exact sample_contains_of_mem text mc cc draws h
        { pos := 0, label := "start" }
        (mem_samplePositions_of_mem_base _ _ _ _ _
          (start_mem_sampleBase _ _ _))
    · exact sample_contains_of_mem text mc cc draws h
        { pos := maxStartOf text.length mc cc, label := "end" }
        (mem_samplePositions_of_mem_base _ _ _ _ _
          (end_mem_sampleBase _ _ _))
    · intro h4
      have hcs200 : 200 ≤ chunkSizeOf mc cc := le_max_left _ _
      refine ⟨(text.length - chunkSizeOf mc cc) / 2, by omega, by omega, ?_⟩
      exact sample_contains_of_mem text mc cc draws h
        { pos := (text.length - chunkSizeOf mc cc) / 2, label := "middle" }
        (mem_samplePositions_of_mem_base _ _ _ _ _
          (middle_mem_sampleBase _ _ _ h4))
  · refine ⟨?_, ?_, ?_, ?_⟩
    · unfold sampleTextForClassification
      rw [if_pos (show exText.length ≤ 50000 from by
        rw [exText_length]; norm_num)]
    · exact containsL_of_decomp (show exText = [] ++ "STARTTOKEN".data ++
        (List.replicate 9800 'a' ++ "MIDTOKEN".data ++
          List.replicate 9800 'b' ++ "ENDTOKEN".data) from by
        unfold exText
        simp only [List.append_assoc, List.nil_append, List.append_nil])
    · exact containsL_of_decomp (show exText =
        ("STARTTOKEN".data ++ List.replicate 9800 'a') ++ "MIDTOKEN".data ++
          (List.replicate 9800 'b' ++ "ENDTOKEN".data) from by
        unfold exText
        simp only [List.append_assoc, List.nil_append, List.append_nil])
    · exact containsL_of_decomp (show exText =
        ("STARTTOKEN".data ++ List.replicate 9800 'a' ++ "MIDTOKEN".data ++
          List.replicate 9800 'b') ++ "ENDTOKEN".data ++ [] from by
        unfold exText
        simp only [List.append_assoc, List.nil_append, List.append_nil])

theorem sampler_boundary_coverage_witness :
    1000 < (List.replicate 1001 'a').length ∧
    ContainsL (sampleTextForClassification (List.replicate 1001 'a') 1000 5
        (fun _ => 0))
      (trimRight (((List.replicate 1001 'a').take
        (0 + chunkSizeOf 1000 5)).drop 0)) :=
  ⟨by rw [List.length_replicate]; norm_num,
   (sampler_boundary_coverage.1 (List.replicate 1001 'a') 1000 5 (fun _ => 0)
     (by rw [List.length_replicate]; norm_num)).1⟩

end ResearchFriend
